import Mathlib

/-!
# Verification of the dcsam hybrid discrete-continuous factor-graph core

A shallow embedding of the dcsam sources (MarineRoboticsGroup/dcsam):
the mixture factors (`DCMaxMixtureFactor.h`, `DCSumMixtureFactor.h`,
`DCEMFactor.h`), the shadow factors (`DCContinuousFactor.h`,
`DCDiscreteFactor.h`) and the alternation controller (`DCSAM.cpp`).

Doubles are modelled as exact rationals; the transcendental functions
`exp` and `log` from `math.h` are passed in as explicit function
parameters (`rexp`, `rlog`), so every definition stays executable.
`std::map` / `gtsam::Values` key-value containers are modelled as
association lists with unique-key update semantics.
-/

namespace dcsam

/-! ## Key-value maps (model of `std::map` / `gtsam::Values`)

`lookupKey m k` is `m.find(k)`; `setVal m k v` is `m[k] = v`
(overwrite the entry for `k` if present, insert otherwise; gtsam's
`Values.update` / `Values.insert` pair used in the sources has the same
combined effect).  Insertion position (sorted in `std::map`, appended
here) is irrelevant to every property below, which only depend on
lookups and structural updates. -/

abbrev KVMap (A : Type) := List (ℕ × A)

def lookupKey {A : Type} : KVMap A → ℕ → Option A
  | [], _ => none
  | p :: rest, k => if p.1 = k then some p.2 else lookupKey rest k

def setVal {A : Type} : KVMap A → ℕ → A → KVMap A
  | [], k, v => [(k, v)]
  | p :: rest, k, v => if p.1 = k then (k, v) :: rest else p :: setVal rest k v

/-- The shared loop shape of `DCDiscreteFactor::updateContinuous`,
`DCDiscreteFactor::updateDiscrete` and `DCContinuousFactor::updateDiscrete`:
for every key of the wrapped factor, overwrite the stored entry when the
argument map holds the key, leave it alone otherwise. -/
def applyVals {A : Type} (ks : List ℕ) (stored arg : KVMap A) : KVMap A :=
  ks.foldl (fun m k =>
    match lookupKey arg k with
    | some v => setVal m k v
    | none => m) stored

/-- The initial-guess merge loops at the top of `DCSAM::update`: for every
key of the guess, update the current estimate if present, insert otherwise. -/
def mergeVals {A : Type} (stored arg : KVMap A) : KVMap A :=
  arg.foldl (fun m p => setVal m p.1 p.2) stored

/-! ## Shadow factors (`DCContinuousFactor.h`, `DCDiscreteFactor.h`)

The controller only manipulates a hybrid factor through its key lists, so a
`DCFactor` handle is modelled by an identifier together with its continuous
and discrete key lists (`keys()` and `discreteKeys()`); `V` is the opaque
manifold-value type stored in a `gtsam::Values`. -/

structure DCFactorDescr where
  id : ℕ
  contKeys : List ℕ
  discKeys : List ℕ
  deriving DecidableEq, Repr

/-- `DCDiscreteFactor`: the discrete-shadow adapter.  It stores the wrapped
factor's discrete keys (`discreteKeys_`), its continuous keys
(`continuousKeys_ = dcfactor->keys()`), a frozen continuous snapshot
(`continuousVals_`) and a frozen discrete snapshot (`discreteVals_`). -/
structure DCDiscreteFactor (V : Type) where
  factorId : ℕ
  discreteKeys : List ℕ
  continuousKeys : List ℕ
  continuousVals : KVMap V
  discreteVals : KVMap ℕ
  deriving DecidableEq, Repr

/-- Constructor `DCDiscreteFactor(dcfactor)`: key lists from the factor,
snapshots empty. -/
def mkDCDiscreteFactor {V : Type} (h : DCFactorDescr) : DCDiscreteFactor V :=
  { factorId := h.id, discreteKeys := h.discKeys, continuousKeys := h.contKeys,
    continuousVals := [], discreteVals := [] }

/-- `DCDiscreteFactor::updateContinuous`: for every continuous key of the
wrapped factor, skip it when absent from the argument, otherwise update the
stored entry if present and insert it if new. -/
def DCDiscreteFactor.updateContinuous {V : Type} (f : DCDiscreteFactor V)
    (continuousVals : KVMap V) : DCDiscreteFactor V :=
  { f with continuousVals := applyVals f.continuousKeys f.continuousVals continuousVals }

/-- `DCDiscreteFactor::updateDiscrete`: for every discrete key of the wrapped
factor present in the argument, overwrite the stored entry. -/
def DCDiscreteFactor.updateDiscrete {V : Type} (f : DCDiscreteFactor V)
    (discreteVals : KVMap ℕ) : DCDiscreteFactor V :=
  { f with discreteVals := applyVals f.discreteKeys f.discreteVals discreteVals }

/-- `DCDiscreteFactor::allInitialized`: every continuous and every discrete
key of the wrapped factor has an entry in the respective frozen snapshot. -/
def DCDiscreteFactor.allInitialized {V : Type} (f : DCDiscreteFactor V) : Bool :=
  f.continuousKeys.all (fun k => (lookupKey f.continuousVals k).isSome) &&
  f.discreteKeys.all (fun k => (lookupKey f.discreteVals k).isSome)

/-- `DCContinuousFactor`: the continuous-shadow adapter, with the wrapped
factor's discrete keys (`discreteKeys_`), its continuous keys
(`keys_ = dcfactor->keys()`) and a frozen discrete snapshot. -/
structure DCContinuousFactor (V : Type) where
  factorId : ℕ
  discreteKeys : List ℕ
  contKeys : List ℕ
  discreteVals : KVMap ℕ
  deriving DecidableEq, Repr

def mkDCContinuousFactor {V : Type} (h : DCFactorDescr) : DCContinuousFactor V :=
  { factorId := h.id, discreteKeys := h.discKeys, contKeys := h.contKeys,
    discreteVals := [] }

/-- `DCContinuousFactor::updateDiscrete`: same loop as the discrete shadow. -/
def DCContinuousFactor.updateDiscrete {V : Type} (f : DCContinuousFactor V)
    (discreteVals : KVMap ℕ) : DCContinuousFactor V :=
  { f with discreteVals := applyVals f.discreteKeys f.discreteVals discreteVals }

/-- `DCContinuousFactor::allInitialized`. -/
def DCContinuousFactor.allInitialized {V : Type} (f : DCContinuousFactor V) : Bool :=
  f.discreteKeys.all (fun k => (lookupKey f.discreteVals k).isSome)

/-! ## The alternation controller (`DCSAM.cpp`)

External engines (iSAM2 and the discrete elimination engine) are out of
scope; they are abstracted as oracles: `contSolve` stands for
`isam_.calculateEstimate()` as a function of the accumulated nonlinear
factor slots, `discSolve` for `dfg_.optimize()` on the accumulated discrete
graph.  A factor slot in either graph is a plain (purely continuous resp.
purely discrete) factor, identified opaquely, or a shadow factor.  Removed
iSAM slots become `none` (iSAM2 keeps the slot but nulls the factor). -/

inductive NonlinearSlot (V : Type) where
  | plain (id : ℕ)
  | shadow (f : DCContinuousFactor V)
  deriving DecidableEq, Repr

inductive DiscreteSlot (V : Type) where
  | plain (id : ℕ)
  | shadow (f : DCDiscreteFactor V)
  deriving DecidableEq, Repr

structure Solvers (V : Type) where
  contSolve : List (Option (NonlinearSlot V)) → KVMap V
  discSolve : List (DiscreteSlot V) → KVMap ℕ

structure DCSAMState (V : Type) where
  isamFactors : List (Option (NonlinearSlot V))
  dfg : List (DiscreteSlot V)
  currContinuous : KVMap V
  currDiscrete : KVMap ℕ

/-- `isam_.update(removeFactorIndices)`: drop the factors at the given slot
indices from the optimizer's internal graph (out-of-range indices are
no-ops, matching the tolerated-removal policy). -/
def applyRemovals {V : Type} (fs : List (Option (NonlinearSlot V)))
    (idxs : List ℕ) : List (Option (NonlinearSlot V)) :=
  idxs.foldl (fun fs i => fs.set i none) fs

/-- `DCSAM::updateDiscreteInfo`: if the continuous estimate is empty, return
immediately; otherwise walk the accumulated discrete graph and, for every
factor that is a discrete shadow, call `updateContinuous` with the
continuous estimate and then `updateDiscrete` with the discrete estimate. -/
def updateDiscreteInfo {V : Type} (continuousVals : KVMap V)
    (discreteVals : KVMap ℕ) (dfg : List (DiscreteSlot V)) :
    List (DiscreteSlot V) :=
  if continuousVals.isEmpty then dfg
  else dfg.map (fun slot =>
    match slot with
    | .shadow f => .shadow ((f.updateContinuous continuousVals).updateDiscrete discreteVals)
    | .plain id => .plain id)

/-- The loop body of `DCSAM::updateContinuousInfo` acting on the optimizer's
factor list: every continuous shadow already in iSAM gets `updateDiscrete`
with the latest discrete estimate (the affected-keys bookkeeping it also
produces is consumed only by the external optimizer and is not modelled). -/
def refreshNonlinear {V : Type} (discreteVals : KVMap ℕ) :
    Option (NonlinearSlot V) → Option (NonlinearSlot V)
  | some (.shadow f) => some (.shadow (f.updateDiscrete discreteVals))
  | s => s

/-- `DCSAM::update(graph, dfg, dcfg, initialGuessContinuous,
initialGuessDiscrete, removeFactorIndices)`, translated line by line from
`DCSAM.cpp`.  Note two faithful quirks of the source: the removal list is
forwarded only to the continuous optimizer (the `dfg_` removal is commented
out in the source), and the local `discreteCombined` graph is pushed into
the accumulated `dfg_` twice — once by each of the two
`updateDiscrete(discreteCombined, ...)` calls.  In C++ the second push
aliases the first through shared pointers; since the per-factor refreshes
applied between the pushes are exactly repeated afterwards, the by-value
model below assigns both copies the same snapshots, as in the source. -/
def DCSAM.update {V : Type} (S : Solvers V) (st : DCSAMState V)
    (graph : List (NonlinearSlot V)) (dfgNew : List (DiscreteSlot V))
    (dcfg : List DCFactorDescr) (initialGuessContinuous : KVMap V)
    (initialGuessDiscrete : KVMap ℕ) (removeFactorIndices : List ℕ) :
    DCSAMState V :=
  -- isam_.update(removeFactorIndices): removals happen first
  let isam1 := applyRemovals st.isamFactors removeFactorIndices
  -- merge the initial guesses into the persistent estimates
  let currC := mergeVals st.currContinuous initialGuessContinuous
  let currD := mergeVals st.currDiscrete initialGuessDiscrete
  -- combined := graph; discreteCombined := dfg ++ one discrete shadow per DC factor
  let combined := graph
  let discreteCombined :=
    dfgNew ++ dcfg.map (fun h => DiscreteSlot.shadow (mkDCDiscreteFactor h))
  -- updateDiscrete(discreteCombined, currContinuous_, currDiscrete_):
  -- push the new discrete factors into dfg_, then updateDiscreteInfo
  let dfg1 := st.dfg ++ discreteCombined
  let dfg2 := updateDiscreteInfo currC currD dfg1
  -- currDiscrete_ = solveDiscrete(), i.e. dfg_.optimize()
  let currD2 := S.discSolve dfg2
  -- one continuous shadow per DC factor, primed with the fresh discrete
  -- estimate, appended to the combined nonlinear graph
  let combined2 := combined ++ dcfg.map (fun h =>
    NonlinearSlot.shadow ((mkDCContinuousFactor h).updateDiscrete currD2))
  -- updateContinuousInfo(currDiscrete_, combined, initialGuessContinuous):
  -- refresh the discrete snapshot of every DC factor already in iSAM, then
  -- isam_.update(newFactors, initialGuess, updateParams)
  let isam2 := (isam1.map (refreshNonlinear currD2)) ++ combined2.map some
  -- currContinuous_ = isam_.calculateEstimate()
  let currC2 := S.contSolve isam2
  -- updateDiscrete(discreteCombined, currContinuous_, currDiscrete_) again:
  -- discreteCombined is pushed into dfg_ a second time, then all discrete
  -- shadows are refreshed with the post-solve continuous estimate
  let dfg3 := dfg2 ++ discreteCombined
  let dfg4 := updateDiscreteInfo currC2 currD2 dfg3
  { isamFactors := isam2, dfg := dfg4,
    currContinuous := currC2, currDiscrete := currD2 }

/-! ## Mixture factors

The mixture classes are templates over a component factor type
(`DCFactorType`); a component is therefore abstracted by its interface as
used by the mixtures: `error`, `logNormalizingConstant`, `dim` and
`linearize`.  `C` is the continuous assignment type (`gtsam::Values`), `D`
the discrete assignment type, `L` the linear factor type returned by
`linearize`. -/

structure DCComponent (C D L : Type) where
  error : C → D → ℚ
  logNormalizingConstant : C → ℚ
  dim : ℕ
  linearize : C → D → L

instance {C D L : Type} [Inhabited L] : Inhabited (DCComponent C D L) :=
  ⟨⟨fun _ _ => 0, fun _ => 0, 0, fun _ _ => default⟩⟩

/-- `e < min_error` where `min_error` starts at
`std::numeric_limits<double>::infinity()` (`none` here): every finite value
beats infinity. -/
def ltInf (e : ℚ) : Option ℚ → Bool
  | none => true
  | some b => decide (e < b)

/-- The scan loop shared by `getActiveFactorIdx` in the three mixture
classes: run over component indices keeping the first index whose value is
strictly below the best so far.  `DCMaxMixtureFactor` initializes
`min_error_idx = 0`; the sum- and EM-variants leave it uninitialized, but
for a non-empty component list the first iteration always assigns it, so the
initial index is irrelevant there. -/
def scanMinIdx (f : ℕ → ℚ) : List ℕ → Option ℚ → ℕ → ℕ
  | [], _, bestIdx => bestIdx
  | i :: rest, best, bestIdx =>
    if ltInf (f i) best then scanMinIdx f rest (some (f i)) i
    else scanMinIdx f rest best bestIdx

/-- The loop body shared by `getActiveFactorIdx`, `error` and
`computeComponentLogProbs` in the three mixture classes:
`error = factors_[i].error(...) - log_weights_[i]`, plus
`factors_[i].logNormalizingConstant(...)` when the mixture is not
normalized. -/
def mixtureComponentError {C D L : Type} [Inhabited L]
    (factors : List (DCComponent C D L)) (logWeights : List ℚ)
    (normalized : Bool) (i : ℕ) (c : C) (d : D) : ℚ :=
  let e := (factors.getD i default).error c d - logWeights.getD i 0
  if normalized then e else e + (factors.getD i default).logNormalizingConstant c

def mixtureActiveIdx {C D L : Type} [Inhabited L]
    (factors : List (DCComponent C D L)) (logWeights : List ℚ)
    (normalized : Bool) (c : C) (d : D) : ℕ :=
  scanMinIdx (fun i => mixtureComponentError factors logWeights normalized i c d)
    (List.range factors.length) none 0

/-- Modelled from the spec: `expNormalize` is declared in `DCSAM_utils.h`,
which is not among the sources under `src/`.  Spec §4.1: "`exp_normalize.`
Numerically stable softmax: subtract max before exponentiating."  The
softmax weights are the shifted exponentials divided by their sum. -/
def expNormalize (rexp : ℚ → ℚ) (l : List ℚ) : List ℚ :=
  match l.max? with
  | none => []
  | some mx =>
    let exps := l.map (fun x => rexp (x - mx))
    exps.map (fun e => e / exps.sum)

/-- Modelled from the spec: `logSumExp` is declared in `DCSAM_utils.h`,
which is not among the sources under `src/`.  Spec §4.1: "`logsumexp.`
Standard stable form", i.e. `max + log (sum exp (x - max))`. -/
def logSumExp (rexp rlog : ℚ → ℚ) (l : List ℚ) : ℚ :=
  match l.max? with
  | none => 0
  | some mx => mx + rlog ((l.map (fun x => rexp (x - mx))).sum)

/-! ### `DCMaxMixtureFactor` -/

structure DCMaxMixtureFactor (C D L : Type) where
  factors : List (DCComponent C D L)
  logWeights : List ℚ
  normalized : Bool

namespace DCMaxMixtureFactor

variable {C D L : Type} [Inhabited L]

/-- Weighted-error constructor: stores `log(weights[i])` (`rlog` models
`log` from `math.h`). -/
def mk1 (rlog : ℚ → ℚ) (factors : List (DCComponent C D L))
    (weights : List ℚ) (normalized : Bool) : DCMaxMixtureFactor C D L :=
  { factors := factors, logWeights := weights.map rlog, normalized := normalized }

/-- No-weights constructor: one zero log-weight per component. -/
def mk2 (factors : List (DCComponent C D L)) (normalized : Bool) :
    DCMaxMixtureFactor C D L :=
  { factors := factors, logWeights := factors.map (fun _ => 0), normalized := normalized }

def getActiveFactorIdx (m : DCMaxMixtureFactor C D L) (c : C) (d : D) : ℕ :=
  mixtureActiveIdx m.factors m.logWeights m.normalized c d

def error (m : DCMaxMixtureFactor C D L) (c : C) (d : D) : ℚ :=
  let idx := m.getActiveFactorIdx c d
  let minError := (m.factors.getD idx default).error c d
  if m.normalized then minError - m.logWeights.getD idx 0
  else minError + (m.factors.getD idx default).logNormalizingConstant c
    - m.logWeights.getD idx 0

/-- `dim()` returns the first component's `dim()` (0 when empty). -/
def dim (m : DCMaxMixtureFactor C D L) : ℕ :=
  match m.factors with
  | [] => 0
  | f :: _ => f.dim

def linearize (m : DCMaxMixtureFactor C D L) (c : C) (d : D) : L :=
  (m.factors.getD (m.getActiveFactorIdx c d) default).linearize c d

/-- `updateWeights`: on a size mismatch, print to `std::cerr` and return
(the stored weights are untouched); otherwise replace every stored
log-weight with the log of the supplied weight. -/
def updateWeights (rlog : ℚ → ℚ) (m : DCMaxMixtureFactor C D L)
    (weights : List ℚ) : DCMaxMixtureFactor C D L :=
  if weights.length ≠ m.logWeights.length then m
  else { m with logWeights := weights.map rlog }

end DCMaxMixtureFactor

/-! ### `DCSumMixtureFactor` -/

structure DCSumMixtureFactor (C D L : Type) where
  factors : List (DCComponent C D L)
  logWeights : List ℚ
  normalized : Bool
  logBeta : ℚ

namespace DCSumMixtureFactor

variable {C D L : Type} [Inhabited L]

/-- Weighted constructor: stores `log(weights[i])` and precomputes
`log_beta_ = logSumExp_i (log w_i + log eta_i)` where `log eta_i` is
*minus* the component's `logNormalizingConstant` evaluated at an empty
`gtsam::Values` (`emptyC`). -/
def mk1 (rexp rlog : ℚ → ℚ) (emptyC : C) (factors : List (DCComponent C D L))
    (weights : List ℚ) (normalized : Bool) : DCSumMixtureFactor C D L :=
  let logWeights := weights.map rlog
  let logWeightedNormalizingConstants :=
    (factors.zip logWeights).map
      (fun p => -(p.1.logNormalizingConstant emptyC) + p.2)
  { factors := factors, logWeights := logWeights, normalized := normalized,
    logBeta := logSumExp rexp rlog logWeightedNormalizingConstants }

/-- No-weights constructor: zero log-weights.  `log_beta_` is left
uninitialized in the source (an indeterminate double); the arbitrary junk
value it holds is made explicit here. -/
def mk2 (junkLogBeta : ℚ) (factors : List (DCComponent C D L))
    (normalized : Bool) : DCSumMixtureFactor C D L :=
  { factors := factors, logWeights := factors.map (fun _ => 0),
    normalized := normalized, logBeta := junkLogBeta }

/-- `computeComponentLogProbs`: one entry per component,
`logprobs[i] = -(error_i)` with `error_i` the weighted component error. -/
def computeComponentLogProbs (m : DCSumMixtureFactor C D L) (c : C) (d : D) :
    List ℚ :=
  (List.range m.factors.length).map
    (fun i => -(mixtureComponentError m.factors m.logWeights m.normalized i c d))

/-- `error`: softmax-weight the component log-probs and return the weighted
sum of the component errors `-logprobs[i]`. -/
def error (rexp : ℚ → ℚ) (m : DCSumMixtureFactor C D L) (c : C) (d : D) : ℚ :=
  let logprobs := m.computeComponentLogProbs c d
  let componentWeights := expNormalize rexp logprobs
  ((componentWeights.zip logprobs).map (fun p => p.1 * (-p.2))).sum

/-- The radicand of `sqrt_residual`, which the source returns as
`sqrt(log_beta_ - error(...))`; the square root is real-valued exactly when
this quantity is nonnegative. -/
def sqrtResidualArg (rexp : ℚ → ℚ) (m : DCSumMixtureFactor C D L)
    (c : C) (d : D) : ℚ :=
  m.logBeta - m.error rexp c d

def getActiveFactorIdx (m : DCSumMixtureFactor C D L) (c : C) (d : D) : ℕ :=
  mixtureActiveIdx m.factors m.logWeights m.normalized c d

/-- `linearize`: the loop in the source computes a sqrt-softmax-weighted
`JacobianFactor` per component but discards every one of them (the local
`jf` is never added to a graph and `gfg.add(jf)` is commented out); the
returned value is the linearization of the dominant component
`factors_[getActiveFactorIdx(...)]`, which is all the model keeps. -/
def linearize (m : DCSumMixtureFactor C D L) (c : C) (d : D) : L :=
  (m.factors.getD (m.getActiveFactorIdx c d) default).linearize c d

/-- `dim()` returns the first component's `dim()` (0 when empty). -/
def dim (m : DCSumMixtureFactor C D L) : ℕ :=
  match m.factors with
  | [] => 0
  | f :: _ => f.dim

def updateWeights (rlog : ℚ → ℚ) (m : DCSumMixtureFactor C D L)
    (weights : List ℚ) : DCSumMixtureFactor C D L :=
  if weights.length ≠ m.logWeights.length then m
  else { m with logWeights := weights.map rlog }

end DCSumMixtureFactor

/-! ### `DCEMFactor` -/

structure DCEMFactor (C D L : Type) where
  factors : List (DCComponent C D L)
  logWeights : List ℚ
  normalized : Bool

namespace DCEMFactor

variable {C D L : Type} [Inhabited L]

def computeComponentLogProbs (m : DCEMFactor C D L) (c : C) (d : D) : List ℚ :=
  (List.range m.factors.length).map
    (fun i => -(mixtureComponentError m.factors m.logWeights m.normalized i c d))

def error (rexp : ℚ → ℚ) (m : DCEMFactor C D L) (c : C) (d : D) : ℚ :=
  let logprobs := m.computeComponentLogProbs c d
  let componentWeights := expNormalize rexp logprobs
  ((componentWeights.zip logprobs).map (fun p => p.1 * (-p.2))).sum

/-- `dim()`: each component factor `i` contributes `factors_[i].dim()` rows
to the overall stacked Jacobian; the total is the sum. -/
def dim (m : DCEMFactor C D L) : ℕ :=
  (m.factors.map (fun f => f.dim)).sum

def updateWeights (rlog : ℚ → ℚ) (m : DCEMFactor C D L)
    (weights : List ℚ) : DCEMFactor C D L :=
  if weights.length ≠ m.logWeights.length then m
  else { m with logWeights := weights.map rlog }

end DCEMFactor

/-! ## The active-index scan computes the first argmin -/

/-- Same loop as `scanMinIdx` but carrying the whole
`(min_error, min_error_idx)` state. -/
def scanMinState (f : ℕ → ℚ) : List ℕ → Option ℚ × ℕ → Option ℚ × ℕ
  | [], s => s
  | i :: rest, s =>
    if ltInf (f i) s.1 then scanMinState f rest (some (f i), i)
    else scanMinState f rest s

/-- `r` is the position of the first minimum of `f` on `[0, n)`. -/
abbrev IsFirstArgminOn (f : ℕ → ℚ) (n r : ℕ) : Prop :=
  r < n ∧ (∀ j, j < n → f r ≤ f j) ∧ (∀ j, j < n → f j = f r → r ≤ j)

/-! ## Concrete instances for evaluating the embedded operations

`rexpT` / `rlogT` are computable rational stand-ins for `exp` / `log`
(truncated power series, so `rexpT 0 = 1` and `rlogT 1 = 0` exactly, as for
the real functions); each concrete evaluation below that uses them is
insensitive to the stand-in, as noted there.  `rexpPos` is an
everywhere-positive stand-in for `exp`. -/

def rexpT (x : ℚ) : ℚ := 1 + x + x ^ 2 / 2 + x ^ 3 / 6 + x ^ 4 / 24

def rlogT (x : ℚ) : ℚ :=
  (x - 1) - (x - 1) ^ 2 / 2 + (x - 1) ^ 3 / 3 - (x - 1) ^ 4 / 4

def rexpPos (x : ℚ) : ℚ := if 0 ≤ x then 1 + x else 1 / (1 - x)

/-- A component with constant error 3, log-normalizer 1, one Jacobian row;
its linearization is tagged by the value 10. -/
def compA : DCComponent Unit Unit ℚ :=
  { error := fun _ _ => 3, logNormalizingConstant := fun _ => 1, dim := 1,
    linearize := fun _ _ => 10 }

/-- A component with constant error 1, log-normalizer 2, two Jacobian rows;
its linearization is tagged by the value 20. -/
def compB : DCComponent Unit Unit ℚ :=
  { error := fun _ _ => 3 / 2, logNormalizingConstant := fun _ => 2, dim := 2,
    linearize := fun _ _ => 20 }

def maxMixW : DCMaxMixtureFactor Unit Unit ℚ :=
  { factors := [compA, compB], logWeights := [0, 0], normalized := false }

def sumMixW : DCSumMixtureFactor Unit Unit ℚ :=
  { factors := [compA, compB], logWeights := [0, 0], normalized := false,
    logBeta := 0 }

def emMixW : DCEMFactor Unit Unit ℚ :=
  { factors := [compA, compB], logWeights := [0, 0], normalized := false }

/-- A normalized component whose error 5 exceeds minus its (zero)
log-normalizing constant. -/
def compC7 : DCComponent Unit Unit ℚ :=
  { error := fun _ _ => 5, logNormalizingConstant := fun _ => 0, dim := 1,
    linearize := fun _ _ => 0 }

/-- The singleton normalized unit-weight sum-mixture built by the
weighted constructor. -/
def sumMixC7 : DCSumMixtureFactor Unit Unit ℚ :=
  DCSumMixtureFactor.mk1 rexpT rlogT () [compC7] [1] true

/-- A discrete shadow over a hybrid factor with the single discrete key 7
and no continuous keys, with empty frozen snapshots. -/
def shC2 : DCDiscreteFactor Unit :=
  { factorId := 0, discreteKeys := [7], continuousKeys := [],
    continuousVals := [], discreteVals := [] }

/-- The same shadow with the discrete snapshot entry `7 ↦ 2`. -/
def shC2W : DCDiscreteFactor Unit :=
  { factorId := 0, discreteKeys := [7], continuousKeys := [],
    continuousVals := [], discreteVals := [(7, 2)] }

def stC2 : DCSAMState Unit :=
  { isamFactors := [], dfg := [DiscreteSlot.shadow shC2],
    currContinuous := [], currDiscrete := [] }

/-- Oracles for a purely discrete problem: the continuous estimate is empty
(no continuous variable exists) and the discrete MAP assigns `7 ↦ 0`. -/
def solC2 : Solvers Unit :=
  { contSolve := fun _ => [], discSolve := fun _ => [(7, 0)] }

def resC2 : DCSAMState Unit :=
  DCSAM.update solC2 stC2 [] [] [] [] [(7, 1)] []

/-- Oracles whose continuous estimate is nonempty. -/
def solC2W : Solvers Unit :=
  { contSolve := fun _ => [(1, Unit.unit)], discSolve := fun _ => [(7, 2)] }

def resC2W : DCSAMState Unit :=
  DCSAM.update solC2W stC2 [] [] [] [(1, Unit.unit)] [(7, 1)] []

/-- Trivial oracles; `discSolve` returning the empty assignment on any
graph agrees with `DiscreteFactorGraph::optimize()` on an empty graph. -/
def solTrivial : Solvers Unit :=
  { contSolve := fun _ => [], discSolve := fun _ => [] }

def stC3 : DCSAMState Unit :=
  { isamFactors := [some (NonlinearSlot.plain 4)], dfg := [DiscreteSlot.plain 0],
    currContinuous := [], currDiscrete := [] }

def resC3 : DCSAMState Unit :=
  DCSAM.update solTrivial stC3 [] [] [] [] [] [0]

/-- A controller state whose discrete estimate holds `3 ↦ 1` while the
accumulated discrete graph is empty. -/
def stC4 : DCSAMState Unit :=
  { isamFactors := [], dfg := [], currContinuous := [], currDiscrete := [(3, 1)] }

/-- A pure-odometry call: one new continuous factor, no new discrete or
hybrid factors, no initial guesses. -/
def resC4 : DCSAMState Unit :=
  DCSAM.update solTrivial stC4 [NonlinearSlot.plain 9] [] [] [] [] []

/-- Shadow and snapshot for exercising `updateDiscrete`. -/
def shC9 : DCDiscreteFactor Unit :=
  { factorId := 2, discreteKeys := [1, 2], continuousKeys := [],
    continuousVals := [], discreteVals := [(3, 9)] }

def gC9 : DCContinuousFactor Unit :=
  { factorId := 2, discreteKeys := [1, 2], contKeys := [5],
    discreteVals := [] }

def snapC9 : KVMap ℕ := [(1, 4)]

end dcsam

namespace dcsam

/-! ## Library lemmas about the embedded operations -/

theorem lookupKey_setVal_self {A : Type} (m : KVMap A) (k : ℕ) (v : A) :
    lookupKey (setVal m k v) k = some v := by
  induction m with
  | nil => simp [setVal, lookupKey]
  | cons p rest ih =>
    by_cases h : p.1 = k
    · simp [setVal, h, lookupKey]
    · simp [setVal, h, lookupKey, ih]

theorem lookupKey_setVal_ne {A : Type} (m : KVMap A) {k x : ℕ} (v : A) (h : x ≠ k) :
    lookupKey (setVal m k v) x = lookupKey m x := by
  induction m with
  | nil => simp [setVal, lookupKey, Ne.symm h]
  | cons p rest ih =>
    by_cases hp : p.1 = k
    · rw [show setVal (p :: rest) k v = (k, v) :: rest by simp [setVal, hp]]
      have hkx : ¬ (k = x) := fun hh => h hh.symm
      have hpx : ¬ (p.1 = x) := by rw [hp]; exact hkx
      simp [lookupKey, hkx, hpx]
    · rw [show setVal (p :: rest) k v = p :: setVal rest k v by simp [setVal, hp]]
      by_cases hpx : p.1 = x
      · simp [lookupKey, hpx]
      · simp [lookupKey, hpx, ih]

theorem setVal_of_lookupKey_eq {A : Type} {m : KVMap A} {k : ℕ} {v : A}
    (h : lookupKey m k = some v) : setVal m k v = m := by
  induction m with
  | nil => simp [lookupKey] at h
  | cons p rest ih =>
    obtain ⟨a, b⟩ := p
    by_cases hp : a = k
    · simp [lookupKey, hp] at h
      simp [setVal, hp, h]
    · simp [lookupKey, hp] at h
      simp [setVal, hp, ih h]

theorem lookupKey_applyVals {A : Type} (ks : List ℕ) (stored arg : KVMap A) (x : ℕ) :
    lookupKey (applyVals ks stored arg) x =
      if x ∈ ks ∧ (lookupKey arg x).isSome then lookupKey arg x
      else lookupKey stored x := by
  induction ks generalizing stored with
  | nil => simp [applyVals]
  | cons k ks ih =>
    have hcons : applyVals (k :: ks) stored arg =
        applyVals ks
          (match lookupKey arg k with
           | some v => setVal stored k v
           | none => stored) arg := rfl
    rw [hcons, ih]
    by_cases hmem : x ∈ ks ∧ (lookupKey arg x).isSome
    · simp [hmem, List.mem_cons, hmem.1, hmem.2]
    · simp only [if_neg hmem]
      by_cases hxk : x = k
      · subst hxk
        cases harg : lookupKey arg x with
        | none => simp [harg, hmem, List.mem_cons]
        | some v => simp [harg, lookupKey_setVal_self, List.mem_cons]
      · have hframe :
            lookupKey
              (match lookupKey arg k with
               | some v => setVal stored k v
               | none => stored) x = lookupKey stored x := by
          cases harg : lookupKey arg k with
          | none => rfl
          | some v => exact lookupKey_setVal_ne stored v hxk
        rw [hframe]
        have hnot : ¬ (x ∈ k :: ks ∧ (lookupKey arg x).isSome) := by
          intro hc
          rcases hc with ⟨hmem2, hs⟩
          rcases List.mem_cons.mp hmem2 with h1 | h1
          · exact hxk h1
          · exact hmem ⟨h1, hs⟩
        rw [if_neg hnot]

theorem applyVals_fix {A : Type} {ks : List ℕ} {s arg : KVMap A}
    (h : ∀ k ∈ ks, ∀ v, lookupKey arg k = some v → lookupKey s k = some v) :
    applyVals ks s arg = s := by
  induction ks with
  | nil => rfl
  | cons k ks ih =>
    have hcons : applyVals (k :: ks) s arg =
        applyVals ks
          (match lookupKey arg k with
           | some v => setVal s k v
           | none => s) arg := rfl
    rw [hcons]
    cases harg : lookupKey arg k with
    | none =>
      exact ih (fun x hx v hv => h x (List.mem_cons_of_mem k hx) v hv)
    | some v =>
      change applyVals ks (setVal s k v) arg = s
      rw [setVal_of_lookupKey_eq (h k (List.mem_cons_self k ks) v harg)]
      exact ih (fun x hx w hw => h x (List.mem_cons_of_mem k hx) w hw)

theorem applyVals_idem {A : Type} (ks : List ℕ) (stored arg : KVMap A) :
    applyVals ks (applyVals ks stored arg) arg = applyVals ks stored arg := by
  apply applyVals_fix
  intro k hk v hv
  rw [lookupKey_applyVals]
  simp [hk, hv]

theorem lookupKey_applyVals_frame {A : Type} {ks : List ℕ} {stored arg : KVMap A} {x : ℕ}
    (h : x ∉ ks ∨ lookupKey arg x = none) :
    lookupKey (applyVals ks stored arg) x = lookupKey stored x := by
  rw [lookupKey_applyVals]
  rcases h with h | h
  · simp [h]
  · simp [h]

theorem scanMinIdx_eq (f : ℕ → ℚ) (l : List ℕ) (best : Option ℚ) (bidx : ℕ) :
    scanMinIdx f l best bidx = (scanMinState f l (best, bidx)).2 := by
  induction l generalizing best bidx with
  | nil => rfl
  | cons i rest ih =>
    simp only [scanMinIdx, scanMinState]
    by_cases h : ltInf (f i) best
    · simp [h, ih]
    · simp [h, ih]

theorem scanMinState_append (f : ℕ → ℚ) (l₁ l₂ : List ℕ) (s : Option ℚ × ℕ) :
    scanMinState f (l₁ ++ l₂) s = scanMinState f l₂ (scanMinState f l₁ s) := by
  induction l₁ generalizing s with
  | nil => rfl
  | cons i rest ih =>
    simp only [List.cons_append, scanMinState]
    by_cases h : ltInf (f i) s.1
    · simp [h, ih]
    · simp [h, ih]

theorem scanMinState_range_spec (f : ℕ → ℚ) :
    ∀ n, 0 < n →
      ∃ r, scanMinState f (List.range n) (none, 0) = (some (f r), r) ∧
        IsFirstArgminOn f n r := by
  intro n hn
  induction n with
  | zero => omega
  | succ n ih =>
    by_cases hn0 : n = 0
    · subst hn0
      refine ⟨0, ?_, Nat.zero_lt_one, ?_, ?_⟩
      · rw [show List.range (0 + 1) = [0] from rfl]
        simp [scanMinState, ltInf]
      · intro j hj
        have hj0 : j = 0 := Nat.lt_one_iff.mp hj
        subst hj0
        exact le_refl _
      · intro j _ _
        exact Nat.zero_le j
    · obtain ⟨r, hstate, hr, hmin, hfirst⟩ := ih (Nat.pos_of_ne_zero hn0)
      rw [List.range_succ, scanMinState_append, hstate]
      by_cases hlt : f n < f r
      · refine ⟨n, ?_, ?_, ?_, ?_⟩
        · simp [scanMinState, ltInf, hlt]
        · omega
        · intro j hj
          rcases Nat.lt_succ_iff_lt_or_eq.mp hj with h | h
          · exact le_of_lt (lt_of_lt_of_le hlt (hmin j h))
          · subst h
            exact le_refl _
        · intro j hj hfe
          rcases Nat.lt_succ_iff_lt_or_eq.mp hj with h | h
          · exact absurd hfe (ne_of_gt (lt_of_lt_of_le hlt (hmin j h)))
          · omega
      · refine ⟨r, ?_, ?_, ?_, ?_⟩
        · simp [scanMinState, ltInf, hlt]
        · omega
        · intro j hj
          rcases Nat.lt_succ_iff_lt_or_eq.mp hj with h | h
          · exact hmin j h
          · subst h
            exact le_of_not_lt hlt
        · intro j hj hfe
          rcases Nat.lt_succ_iff_lt_or_eq.mp hj with h | h
          · exact hfirst j h hfe
          · omega

theorem mixtureActiveIdx_spec {C D L : Type} [Inhabited L]
    (factors : List (DCComponent C D L)) (logWeights : List ℚ)
    (normalized : Bool) (c : C) (d : D) (hne : factors ≠ []) :
    IsFirstArgminOn
      (fun i => mixtureComponentError factors logWeights normalized i c d)
      factors.length (mixtureActiveIdx factors logWeights normalized c d) := by
  have hn : 0 < factors.length := List.length_pos.mpr hne
  obtain ⟨r, hstate, hspec⟩ := scanMinState_range_spec _ factors.length hn
  unfold mixtureActiveIdx
  rw [scanMinIdx_eq, hstate]
  exact hspec

theorem IsFirstArgminOn_unique {f : ℕ → ℚ} {n r s : ℕ}
    (hr : IsFirstArgminOn f n r) (hs : IsFirstArgminOn f n s) : r = s := by
  obtain ⟨hrn, hrmin, hrfirst⟩ := hr
  obtain ⟨hsn, hsmin, hsfirst⟩ := hs
  have h1 : f r = f s := le_antisymm (hrmin s hsn) (hsmin r hrn)
  exact le_antisymm (hrfirst s hsn h1.symm) (hsfirst r hrn h1)

/-! ## Claim C1 -/

/-- **C1.** For a max-mixture factor with components `f_0 .. f_{K-1}` and
stored log-weights, and any continuous/discrete assignment: the active index
`i*` computed by `getActiveFactorIdx` is in range and is the first argmin of
the weighted component errors
`e_i = f_i.error(cont,disc) - log w_i + (unnormalized ? logNormConst_i(cont) : 0)`
(ties broken in favor of the first minimum, and any first argmin equals
`i*`, so recomputing the index on the same inputs necessarily yields the
same value); `error(cont,disc) = e_{i*}`; and `linearize(cont,disc)` returns
`f_{i*}.linearize(cont,disc)`. -/
theorem claim_C1_maxMixture_active {C D L : Type} [Inhabited L]
    (m : DCMaxMixtureFactor C D L) (c : C) (d : D) (hne : m.factors ≠ []) :
    m.getActiveFactorIdx c d < m.factors.length ∧
    (∀ j, j < m.factors.length →
      mixtureComponentError m.factors m.logWeights m.normalized
        (m.getActiveFactorIdx c d) c d ≤
      mixtureComponentError m.factors m.logWeights m.normalized j c d) ∧
    (∀ j, j < m.factors.length →
      mixtureComponentError m.factors m.logWeights m.normalized j c d =
      mixtureComponentError m.factors m.logWeights m.normalized
        (m.getActiveFactorIdx c d) c d →
      m.getActiveFactorIdx c d ≤ j) ∧
    (∀ r, IsFirstArgminOn
        (fun i => mixtureComponentError m.factors m.logWeights m.normalized i c d)
        m.factors.length r → r = m.getActiveFactorIdx c d) ∧
    m.error c d =
      mixtureComponentError m.factors m.logWeights m.normalized
        (m.getActiveFactorIdx c d) c d ∧
    m.linearize c d =
      (m.factors.getD (m.getActiveFactorIdx c d) default).linearize c d := by
  obtain ⟨hlt, hmin, hfirst⟩ :=
    mixtureActiveIdx_spec m.factors m.logWeights m.normalized c d hne
  refine ⟨hlt, hmin, hfirst, ?_, ?_, rfl⟩
  · intro r hr
    exact IsFirstArgminOn_unique hr ⟨hlt, hmin, hfirst⟩
  · show DCMaxMixtureFactor.error m c d = _
    unfold DCMaxMixtureFactor.error mixtureComponentError
    cases hn : m.normalized
    · simp [hn]
      ring
    · simp [hn]

/-- Witness for C1: a two-component unnormalized max-mixture with weighted
errors 4 and 7/2, whose active index is 1. -/
theorem claim_C1_witness :
    maxMixW.factors ≠ [] ∧
    maxMixW.error Unit.unit Unit.unit =
      mixtureComponentError maxMixW.factors maxMixW.logWeights maxMixW.normalized
        (maxMixW.getActiveFactorIdx Unit.unit Unit.unit) Unit.unit Unit.unit :=
  ⟨List.cons_ne_nil _ _,
   (claim_C1_maxMixture_active maxMixW Unit.unit Unit.unit
      (List.cons_ne_nil _ _)).2.2.2.2.1⟩

/-! ## Claim C5 -/

/-- Counterexample to C5: the claim says every mixture's `dim()` is the sum
of the component dims, but `DCMaxMixtureFactor::dim` and
`DCSumMixtureFactor::dim` return `factors_[0].dim()`.  With component dims
1 and 2, both return 1 while the sums are 3. -/
theorem claim_C5_counterexample :
    maxMixW.dim = 1 ∧ sumMixW.dim = 1 ∧
    (maxMixW.factors.map (fun f => f.dim)).sum = 3 ∧
    (sumMixW.factors.map (fun f => f.dim)).sum = 3 ∧
    maxMixW.dim ≠ (maxMixW.factors.map (fun f => f.dim)).sum ∧
    sumMixW.dim ≠ (sumMixW.factors.map (fun f => f.dim)).sum := by
  norm_num [DCMaxMixtureFactor.dim, DCSumMixtureFactor.dim, maxMixW, sumMixW,
    compA, compB]

/-- **C5 (amended).** The EM-mixture `dim()` is the sum of the component
`dim()`s (its `linearize` stacks all components); the max-mixture and
sum-mixture `dim()` is the *first* component's `dim()` for a non-empty
component list, and 0 otherwise. -/
theorem claim_C5_amended_dims {C D L : Type} (mm : DCMaxMixtureFactor C D L)
    (sm : DCSumMixtureFactor C D L) (em : DCEMFactor C D L)
    (f : DCComponent C D L) (fs : List (DCComponent C D L))
    (hmm : mm.factors = f :: fs) (hsm : sm.factors = f :: fs) :
    em.dim = (em.factors.map (fun g => g.dim)).sum ∧
    mm.dim = f.dim ∧ sm.dim = f.dim := by
  refine ⟨rfl, ?_, ?_⟩
  · unfold DCMaxMixtureFactor.dim
    rw [hmm]
  · unfold DCSumMixtureFactor.dim
    rw [hsm]

/-- Witness for C5 (amended): the concrete mixtures over components of dims
1 and 2. -/
theorem claim_C5_witness :
    maxMixW.factors = compA :: [compB] ∧
    maxMixW.dim = compA.dim ∧ sumMixW.dim = compA.dim :=
  ⟨rfl,
   (claim_C5_amended_dims maxMixW sumMixW emMixW compA [compB] rfl rfl).2.1,
   (claim_C5_amended_dims maxMixW sumMixW emMixW compA [compB] rfl rfl).2.2⟩

/-! ## Claim C6 -/

theorem computeComponentLogProbs_getD {C D L : Type} [Inhabited L]
    (m : DCSumMixtureFactor C D L) (c : C) (d : D) {j : ℕ}
    (hj : j < m.factors.length) :
    (m.computeComponentLogProbs c d).getD j 0 =
      -(mixtureComponentError m.factors m.logWeights m.normalized j c d) := by
  unfold DCSumMixtureFactor.computeComponentLogProbs
  rw [List.getD_eq_getElem?_getD, List.getElem?_map, List.getElem?_range hj]
  rfl

/-- **C6.** For a sum-mixture, `linearize(cont, disc)` returns exactly the
linearization of the dominant component — the component whose log-prob
`computeComponentLogProbs[i]` is maximal (equivalently whose weighted error
is minimal), the first such index on ties — and not a stacked or reweighted
combination (the stacked-weighted Jacobians built inside the source's loop
are all discarded). -/
theorem claim_C6_sum_linearize_dominant {C D L : Type} [Inhabited L]
    (m : DCSumMixtureFactor C D L) (c : C) (d : D) (hne : m.factors ≠ []) :
    m.getActiveFactorIdx c d < m.factors.length ∧
    (∀ j, j < m.factors.length →
      (m.computeComponentLogProbs c d).getD j 0 ≤
      (m.computeComponentLogProbs c d).getD (m.getActiveFactorIdx c d) 0) ∧
    (∀ j, j < m.factors.length →
      (m.computeComponentLogProbs c d).getD j 0 =
      (m.computeComponentLogProbs c d).getD (m.getActiveFactorIdx c d) 0 →
      m.getActiveFactorIdx c d ≤ j) ∧
    m.linearize c d =
      (m.factors.getD (m.getActiveFactorIdx c d) default).linearize c d := by
  obtain ⟨hlt, hmin, hfirst⟩ :=
    mixtureActiveIdx_spec m.factors m.logWeights m.normalized c d hne
  have hlt2 : m.getActiveFactorIdx c d < m.factors.length := hlt
  refine ⟨hlt, ?_, ?_, rfl⟩
  · intro j hj
    rw [computeComponentLogProbs_getD m c d hj, computeComponentLogProbs_getD m c d hlt2]
    exact neg_le_neg (hmin j hj)
  · intro j hj heq
    rw [computeComponentLogProbs_getD m c d hj,
      computeComponentLogProbs_getD m c d hlt2] at heq
    exact hfirst j hj (neg_injective heq)

/-- Witness for C6: the two-component sum-mixture; its active index is 1 and
`linearize` returns component 1's linearization (tagged 20). -/
theorem claim_C6_witness :
    sumMixW.factors ≠ [] ∧
    sumMixW.getActiveFactorIdx Unit.unit Unit.unit < sumMixW.factors.length ∧
    sumMixW.linearize Unit.unit Unit.unit = 20 := by
  have hne : sumMixW.factors ≠ [] := List.cons_ne_nil _ _
  refine ⟨hne, (claim_C6_sum_linearize_dominant sumMixW Unit.unit Unit.unit hne).1, ?_⟩
  norm_num [DCSumMixtureFactor.linearize, DCSumMixtureFactor.getActiveFactorIdx,
    mixtureActiveIdx, scanMinIdx, ltInf, mixtureComponentError, sumMixW,
    compA, compB, List.range_succ]

/-! ## Claim C7 -/

/-- Counterexample to C7: a sum-mixture's `error` is *not* bounded by
`log_beta_`.  `sumMixC7` is the singleton normalized unit-weight mixture
built by the weighted constructor over a component with error 5 and zero
log-normalizing constant: `log β = 0` but `error = 5`, so the radicand
`log β − error` of `sqrt_residual` is negative and the square root is not
real.  The evaluation does not depend on the `exp`/`log` stand-ins: the
softmax of the singleton log-prob list is `[rexpT 0 / rexpT 0] = [1]`, and
`log β` only takes `rlogT (rexpT 0) = rlogT 1 = 0`, exactly as for the real
functions. -/
theorem claim_C7_counterexample :
    ¬ (sumMixC7.error rexpT Unit.unit Unit.unit ≤ sumMixC7.logBeta) := by
  have herr : sumMixC7.error rexpT Unit.unit Unit.unit = 5 := by
    norm_num [DCSumMixtureFactor.error, DCSumMixtureFactor.computeComponentLogProbs,
      expNormalize, mixtureComponentError, sumMixC7, DCSumMixtureFactor.mk1, compC7,
      rexpT, rlogT, List.range_succ, List.max?]
  have hbeta : sumMixC7.logBeta = 0 := by
    norm_num [sumMixC7, DCSumMixtureFactor.mk1, logSumExp, rlogT, rexpT, compC7]
  rw [herr, hbeta]
  norm_num

theorem sum_map_div (l : List ℚ) (t : ℚ) :
    (l.map (fun x => x / t)).sum = l.sum / t := by
  induction l with
  | nil => simp
  | cons x xs ih => simp [ih, add_div]

theorem expNormalize_length (rexp : ℚ → ℚ) (l : List ℚ) :
    (expNormalize rexp l).length = l.length := by
  unfold expNormalize
  cases h : l.max? with
  | none => simp [List.max?_eq_none_iff.mp h]
  | some mx => simp

theorem expNormalize_exps_sum_pos {rexp : ℚ → ℚ} (hpos : ∀ x, 0 < rexp x)
    {l : List ℚ} (hne : l ≠ []) (mx : ℚ) :
    0 < (l.map (fun x => rexp (x - mx))).sum := by
  apply List.sum_pos
  · intro a ha
    obtain ⟨x, _, rfl⟩ := List.mem_map.mp ha
    exact hpos _
  · simpa using hne

theorem expNormalize_sum_one {rexp : ℚ → ℚ} (hpos : ∀ x, 0 < rexp x)
    {l : List ℚ} (hne : l ≠ []) : (expNormalize rexp l).sum = 1 := by
  unfold expNormalize
  cases h : l.max? with
  | none => exact absurd (List.max?_eq_none_iff.mp h) hne
  | some mx =>
    rw [sum_map_div]
    exact div_self (ne_of_gt (expNormalize_exps_sum_pos hpos hne mx))

theorem expNormalize_nonneg {rexp : ℚ → ℚ} (hpos : ∀ x, 0 < rexp x)
    (l : List ℚ) : ∀ w ∈ expNormalize rexp l, 0 ≤ w := by
  unfold expNormalize
  cases h : l.max? with
  | none => simp
  | some mx =>
    intro w hw
    obtain ⟨e, he, rfl⟩ := List.mem_map.mp hw
    obtain ⟨x, _, rfl⟩ := List.mem_map.mp he
    have hne : l ≠ [] := by
      intro hnil
      rw [hnil] at h
      simp at h
    exact div_nonneg (le_of_lt (hpos _))
      (le_of_lt (expNormalize_exps_sum_pos hpos hne mx))

theorem sum_zip_weighted_ge {b : ℚ} :
    ∀ (ws ls : List ℚ), ws.length = ls.length →
      (∀ w ∈ ws, 0 ≤ w) → (∀ x ∈ ls, b ≤ -x) →
      b * ws.sum ≤ ((ws.zip ls).map (fun p => p.1 * (-p.2))).sum := by
  intro ws
  induction ws with
  | nil =>
    intro ls _ _ _
    simp
  | cons w ws ih =>
    intro ls hlen hw hl
    cases ls with
    | nil => simp at hlen
    | cons x xs =>
      have h1 : b * ws.sum ≤ ((ws.zip xs).map (fun p => p.1 * (-p.2))).sum :=
        ih xs (by simpa using hlen)
          (fun a ha => hw a (List.mem_cons_of_mem _ ha))
          (fun a ha => hl a (List.mem_cons_of_mem _ ha))
      have h2 : w * b ≤ w * (-x) :=
        mul_le_mul_of_nonneg_left (hl x (List.mem_cons_self _ _))
          (hw w (List.mem_cons_self _ _))
      simp only [List.zip_cons_cons, List.map_cons, List.sum_cons, mul_add]
      linarith

/-- **C7 (amended).** The claimed invariant `error ≤ log β` fails (see the
counterexample; the no-weights constructor additionally leaves `log_beta_`
uninitialized), so `sqrt_residual`'s radicand `log β − error` can be
negative.  What does hold: the sum-mixture `error` is the softmax-weighted
average of the weighted component errors, hence bounded *below* by the
minimal weighted component error (the max-mixture error, attained at the
active index), for any strictly positive `exp` implementation. -/
theorem claim_C7_amended_error_lower_bound {C D L : Type} [Inhabited L]
    (rexp : ℚ → ℚ) (hpos : ∀ x, 0 < rexp x)
    (m : DCSumMixtureFactor C D L) (c : C) (d : D) (hne : m.factors ≠ []) :
    mixtureComponentError m.factors m.logWeights m.normalized
      (m.getActiveFactorIdx c d) c d ≤ m.error rexp c d := by
  obtain ⟨hlt, hmin, hfirst⟩ :=
    mixtureActiveIdx_spec m.factors m.logWeights m.normalized c d hne
  have hlsne : m.computeComponentLogProbs c d ≠ [] := by
    unfold DCSumMixtureFactor.computeComponentLogProbs
    simpa using hne
  have hlen : (expNormalize rexp (m.computeComponentLogProbs c d)).length =
      (m.computeComponentLogProbs c d).length :=
    expNormalize_length rexp _
  have hw := expNormalize_nonneg hpos (m.computeComponentLogProbs c d)
  have hl : ∀ x ∈ m.computeComponentLogProbs c d,
      mixtureComponentError m.factors m.logWeights m.normalized
        (m.getActiveFactorIdx c d) c d ≤ -x := by
    intro x hx
    unfold DCSumMixtureFactor.computeComponentLogProbs at hx
    obtain ⟨j, hj, rfl⟩ := List.mem_map.mp hx
    rw [neg_neg]
    exact hmin j (List.mem_range.mp hj)
  have hsum : (expNormalize rexp (m.computeComponentLogProbs c d)).sum = 1 :=
    expNormalize_sum_one hpos hlsne
  have hmain := sum_zip_weighted_ge
    (expNormalize rexp (m.computeComponentLogProbs c d))
    (m.computeComponentLogProbs c d) hlen hw hl
  rw [hsum, mul_one] at hmain
  exact hmain

/-- Witness for C7 (amended): the singleton mixture with the
everywhere-positive `exp` stand-in. -/
theorem claim_C7_witness :
    (∀ x, 0 < rexpPos x) ∧ sumMixC7.factors ≠ [] ∧
    mixtureComponentError sumMixC7.factors sumMixC7.logWeights sumMixC7.normalized
      (sumMixC7.getActiveFactorIdx Unit.unit Unit.unit) Unit.unit Unit.unit ≤
      sumMixC7.error rexpPos Unit.unit Unit.unit := by
  have hpos : ∀ x, 0 < rexpPos x := by
    intro x
    unfold rexpPos
    split_ifs with h
    · linarith
    · have h1 : (0:ℚ) < 1 - x := by
        have : x < 0 := not_le.mp h
        linarith
      exact div_pos one_pos h1
  have hne : sumMixC7.factors ≠ [] := by
    norm_num [sumMixC7, DCSumMixtureFactor.mk1]
  exact ⟨hpos, hne,
    claim_C7_amended_error_lower_bound rexpPos hpos sumMixC7 Unit.unit Unit.unit hne⟩

/-! ## Claim C8 -/

/-- Counterexample to C8: the claim says a length-mismatched
`update_weights` call "aborts loudly (assertion or panic)".  It does not:
the source prints a message to `std::cerr` and returns normally, leaving
the factor unchanged — the call on a 2-component mixture with a 3-entry
weight vector returns the very same factor. -/
theorem claim_C8_counterexample :
    DCMaxMixtureFactor.updateWeights rlogT maxMixW [1, 2, 3] = maxMixW := by
  norm_num [DCMaxMixtureFactor.updateWeights, maxMixW]

/-- **C8 (amended).** For every mixture (max, sum, EM), calling
`update_weights` with a weight vector whose length differs from the number
of stored log-weights is tolerated: the function prints an error message to
`stderr` and returns normally with the factor unchanged; no assertion or
abort occurs. -/
theorem claim_C8_amended_mismatch {C D L : Type}
    (rlog : ℚ → ℚ) (m1 : DCMaxMixtureFactor C D L) (m2 : DCSumMixtureFactor C D L)
    (m3 : DCEMFactor C D L) (w : List ℚ)
    (h1 : w.length ≠ m1.logWeights.length)
    (h2 : w.length ≠ m2.logWeights.length)
    (h3 : w.length ≠ m3.logWeights.length) :
    DCMaxMixtureFactor.updateWeights rlog m1 w = m1 ∧
    DCSumMixtureFactor.updateWeights rlog m2 w = m2 ∧
    DCEMFactor.updateWeights rlog m3 w = m3 := by
  refine ⟨?_, ?_, ?_⟩
  · simp [DCMaxMixtureFactor.updateWeights, h1]
  · simp [DCSumMixtureFactor.updateWeights, h2]
  · simp [DCEMFactor.updateWeights, h3]

/-- Witness for C8 (amended): a 3-entry weight vector against 2-component
mixtures. -/
theorem claim_C8_witness :
    ([(1:ℚ), 2, 3].length ≠ maxMixW.logWeights.length) ∧
    DCMaxMixtureFactor.updateWeights rlogT maxMixW [1, 2, 3] = maxMixW ∧
    DCSumMixtureFactor.updateWeights rlogT sumMixW [1, 2, 3] = sumMixW ∧
    DCEMFactor.updateWeights rlogT emMixW [1, 2, 3] = emMixW := by
  have h1 : ([(1:ℚ), 2, 3]).length ≠ maxMixW.logWeights.length := by
    norm_num [maxMixW]
  have h2 : ([(1:ℚ), 2, 3]).length ≠ sumMixW.logWeights.length := by
    norm_num [sumMixW]
  have h3 : ([(1:ℚ), 2, 3]).length ≠ emMixW.logWeights.length := by
    norm_num [emMixW]
  have h := claim_C8_amended_mismatch rlogT maxMixW sumMixW emMixW [1, 2, 3] h1 h2 h3
  exact ⟨h1, h.1, h.2.1, h.2.2⟩

/-! ## Claim C10 -/

/-- **C10.** For every mixture (max, sum, EM) and weight vector `w`: when
`w` has the wrong length the call returns normally with the factor entirely
unchanged (no partial write); when the length matches, the stored
log-weights become exactly `map log w` and every other field is
untouched. -/
theorem claim_C10_updateWeights_semantics {C D L : Type}
    (rlog : ℚ → ℚ) (m1 : DCMaxMixtureFactor C D L) (m2 : DCSumMixtureFactor C D L)
    (m3 : DCEMFactor C D L) (w : List ℚ) :
    (w.length ≠ m1.logWeights.length →
      DCMaxMixtureFactor.updateWeights rlog m1 w = m1) ∧
    (w.length = m1.logWeights.length →
      DCMaxMixtureFactor.updateWeights rlog m1 w =
        { m1 with logWeights := w.map rlog }) ∧
    (w.length ≠ m2.logWeights.length →
      DCSumMixtureFactor.updateWeights rlog m2 w = m2) ∧
    (w.length = m2.logWeights.length →
      DCSumMixtureFactor.updateWeights rlog m2 w =
        { m2 with logWeights := w.map rlog }) ∧
    (w.length ≠ m3.logWeights.length →
      DCEMFactor.updateWeights rlog m3 w = m3) ∧
    (w.length = m3.logWeights.length →
      DCEMFactor.updateWeights rlog m3 w =
        { m3 with logWeights := w.map rlog }) := by
  refine ⟨fun h => ?_, fun h => ?_, fun h => ?_, fun h => ?_, fun h => ?_, fun h => ?_⟩
  · simp [DCMaxMixtureFactor.updateWeights, h]
  · simp [DCMaxMixtureFactor.updateWeights, h]
  · simp [DCSumMixtureFactor.updateWeights, h]
  · simp [DCSumMixtureFactor.updateWeights, h]
  · simp [DCEMFactor.updateWeights, h]
  · simp [DCEMFactor.updateWeights, h]

/-- Witness for C10: a matching-length update on the 2-component max-mixture
replaces the stored log-weights by the logs of the new weights. -/
theorem claim_C10_witness :
    ([(1:ℚ), 2].length = maxMixW.logWeights.length) ∧
    DCMaxMixtureFactor.updateWeights rlogT maxMixW [1, 2] =
      { maxMixW with logWeights := [1, 2].map rlogT } := by
  have h : ([(1:ℚ), 2]).length = maxMixW.logWeights.length := by
    norm_num [maxMixW]
  exact ⟨h, (claim_C10_updateWeights_semantics rlogT maxMixW sumMixW emMixW [1, 2]).2.1 h⟩

/-! ## Controller helper lemmas -/

theorem updateDiscreteInfo_length {V : Type} (cv : KVMap V) (dv : KVMap ℕ)
    (dfg : List (DiscreteSlot V)) :
    (updateDiscreteInfo cv dv dfg).length = dfg.length := by
  unfold updateDiscreteInfo
  split
  · rfl
  · simp

theorem updateDiscreteInfo_nil {V : Type} (cv : KVMap V) (dv : KVMap ℕ) :
    updateDiscreteInfo cv dv [] = [] := by
  unfold updateDiscreteInfo
  split
  · rfl
  · rfl

theorem discreteShadow_refresh_cont_fix {V : Type} (g : DCDiscreteFactor V)
    (cv : KVMap V) (dv : KVMap ℕ) :
    ((g.updateContinuous cv).updateDiscrete dv).updateContinuous cv =
      (g.updateContinuous cv).updateDiscrete dv := by
  cases g
  simp [DCDiscreteFactor.updateContinuous, DCDiscreteFactor.updateDiscrete,
    applyVals_idem]

theorem discreteShadow_refresh_disc_fix {V : Type} (g : DCDiscreteFactor V)
    (cv : KVMap V) (dv : KVMap ℕ) :
    ((g.updateContinuous cv).updateDiscrete dv).updateDiscrete dv =
      (g.updateContinuous cv).updateDiscrete dv := by
  cases g
  simp [DCDiscreteFactor.updateContinuous, DCDiscreteFactor.updateDiscrete,
    applyVals_idem]

/-- Any discrete shadow found in the output of a non-skipped
`updateDiscreteInfo` pass is a fixpoint of re-syncing with the same
estimates. -/
theorem updateDiscreteInfo_mem_sync {V : Type} {cv : KVMap V} {dv : KVMap ℕ}
    {dfg : List (DiscreteSlot V)} (hcv : cv ≠ []) (f : DCDiscreteFactor V)
    (hf : DiscreteSlot.shadow f ∈ updateDiscreteInfo cv dv dfg) :
    f.updateContinuous cv = f ∧ f.updateDiscrete dv = f := by
  unfold updateDiscreteInfo at hf
  rw [if_neg (fun hemp => hcv (List.isEmpty_iff.mp hemp))] at hf
  obtain ⟨slot, _, heq⟩ := List.mem_map.mp hf
  cases slot with
  | plain id => simp at heq
  | shadow g =>
    have hfg : f = (g.updateContinuous cv).updateDiscrete dv := by
      have heq2 : DiscreteSlot.shadow (V := V)
          ((g.updateContinuous cv).updateDiscrete dv) = DiscreteSlot.shadow f := heq
      injection heq2 with h
      exact h.symm
    subst hfg
    exact ⟨discreteShadow_refresh_cont_fix g cv dv,
      discreteShadow_refresh_disc_fix g cv dv⟩

theorem applyRemovals_length {V : Type} (fs : List (Option (NonlinearSlot V)))
    (idxs : List ℕ) : (applyRemovals fs idxs).length = fs.length := by
  induction idxs generalizing fs with
  | nil => rfl
  | cons i rest ih =>
    show (applyRemovals (fs.set i none) rest).length = fs.length
    rw [ih, List.length_set]

theorem applyRemovals_get_none {V : Type} {fs : List (Option (NonlinearSlot V))}
    {idxs : List ℕ} {i : ℕ} (h : fs.get? i = some none) :
    (applyRemovals fs idxs).get? i = some none := by
  induction idxs generalizing fs with
  | nil => exact h
  | cons j rest ih =>
    show (applyRemovals (fs.set j none) rest).get? i = some none
    apply ih
    by_cases hij : j = i
    · subst hij
      rw [List.get?_set_eq, h]
      rfl
    · rw [List.get?_set_ne _ _ hij]
      exact h

/-- After `isam_.update(removeFactorIndices)`, every valid removed slot is
nulled. -/
theorem applyRemovals_mem_get {V : Type} {fs : List (Option (NonlinearSlot V))}
    {idxs : List ℕ} {i : ℕ} (hmem : i ∈ idxs) (hlt : i < fs.length) :
    (applyRemovals fs idxs).get? i = some none := by
  induction idxs generalizing fs with
  | nil => simp at hmem
  | cons j rest ih =>
    show (applyRemovals (fs.set j none) rest).get? i = some none
    rcases List.mem_cons.mp hmem with h | h
    · subst h
      apply applyRemovals_get_none
      rw [List.get?_set_eq, List.get?_eq_get hlt]
      rfl
    · exact ih h (by rw [List.length_set]; exact hlt)

/-- The result components of `DCSAM::update`, read off the translation: the
optimizer factor list is the removal-processed old list (each shadow
re-synced) followed by the new factors; each field is stated in terms of
the update's own resulting estimates. -/
theorem DCSAM.update_isamFactors_eq {V : Type} (S : Solvers V) (st : DCSAMState V)
    (graph : List (NonlinearSlot V)) (dfgNew : List (DiscreteSlot V))
    (dcfg : List DCFactorDescr) (ic : KVMap V) (idg : KVMap ℕ) (rem : List ℕ) :
    (DCSAM.update S st graph dfgNew dcfg ic idg rem).isamFactors =
      (applyRemovals st.isamFactors rem).map
        (refreshNonlinear (DCSAM.update S st graph dfgNew dcfg ic idg rem).currDiscrete)
      ++ (graph ++ dcfg.map (fun h => NonlinearSlot.shadow
            ((mkDCContinuousFactor h).updateDiscrete
              (DCSAM.update S st graph dfgNew dcfg ic idg rem).currDiscrete))).map some :=
  rfl

theorem DCSAM.update_dfg_eq {V : Type} (S : Solvers V) (st : DCSAMState V)
    (graph : List (NonlinearSlot V)) (dfgNew : List (DiscreteSlot V))
    (dcfg : List DCFactorDescr) (ic : KVMap V) (idg : KVMap ℕ) (rem : List ℕ) :
    (DCSAM.update S st graph dfgNew dcfg ic idg rem).dfg =
      updateDiscreteInfo
        (DCSAM.update S st graph dfgNew dcfg ic idg rem).currContinuous
        (DCSAM.update S st graph dfgNew dcfg ic idg rem).currDiscrete
        (updateDiscreteInfo (mergeVals st.currContinuous ic)
            (mergeVals st.currDiscrete idg)
            (st.dfg ++ (dfgNew ++ dcfg.map
              (fun h => DiscreteSlot.shadow (mkDCDiscreteFactor h))))
          ++ (dfgNew ++ dcfg.map
              (fun h => DiscreteSlot.shadow (mkDCDiscreteFactor h)))) :=
  rfl

theorem DCSAM.update_currDiscrete_eq {V : Type} (S : Solvers V) (st : DCSAMState V)
    (graph : List (NonlinearSlot V)) (dfgNew : List (DiscreteSlot V))
    (dcfg : List DCFactorDescr) (ic : KVMap V) (idg : KVMap ℕ) (rem : List ℕ) :
    (DCSAM.update S st graph dfgNew dcfg ic idg rem).currDiscrete =
      S.discSolve (updateDiscreteInfo (mergeVals st.currContinuous ic)
        (mergeVals st.currDiscrete idg)
        (st.dfg ++ (dfgNew ++ dcfg.map
          (fun h => DiscreteSlot.shadow (mkDCDiscreteFactor h))))) :=
  rfl

/-! ## Claim C2 -/

/-- Counterexample to C2: on a purely discrete problem the continuous
estimate is empty, and `DCSAM::updateDiscreteInfo` returns immediately
(`if (continuousVals.empty()) return;`), so no registered discrete shadow
is synced.  Concretely: a controller whose accumulated graph holds one
discrete shadow (discrete key 7, empty snapshots) is updated with the
initial discrete guess `7 ↦ 1`; after the call the current discrete
estimate binds key 7, yet the shadow kept its empty snapshot — applying
`update_discrete` with the current estimate would change it, so it was
never applied, and the shadow is not initialized for a variable that
appeared in an initial guess. -/
theorem claim_C2_counterexample :
    resC2.dfg = [DiscreteSlot.shadow shC2] ∧
    resC2.currDiscrete = [(7, 0)] ∧
    lookupKey shC2.discreteVals 7 = none ∧
    shC2.updateDiscrete resC2.currDiscrete ≠ shC2 := by
  decide

/-- **C2 (amended).** Whenever the continuous estimate at the end of
`update` is non-empty (so the `updateDiscreteInfo` guard does not trip),
every discrete shadow registered in the accumulated discrete graph — from
this and all earlier calls — has had `update_continuous` applied with the
current continuous estimate and `update_discrete` applied with the current
discrete estimate: each is a fixpoint of re-applying both.  When the
continuous estimate is empty the sync is skipped entirely (see the
counterexample). -/
theorem claim_C2_amended_sync_nonempty_continuous {V : Type} (S : Solvers V)
    (st : DCSAMState V) (graph : List (NonlinearSlot V))
    (dfgNew : List (DiscreteSlot V)) (dcfg : List DCFactorDescr)
    (ic : KVMap V) (idg : KVMap ℕ) (rem : List ℕ)
    (hne : (DCSAM.update S st graph dfgNew dcfg ic idg rem).currContinuous ≠ [])
    (f : DCDiscreteFactor V)
    (hf : DiscreteSlot.shadow f ∈ (DCSAM.update S st graph dfgNew dcfg ic idg rem).dfg) :
    f.updateContinuous (DCSAM.update S st graph dfgNew dcfg ic idg rem).currContinuous = f ∧
    f.updateDiscrete (DCSAM.update S st graph dfgNew dcfg ic idg rem).currDiscrete = f :=
  updateDiscreteInfo_mem_sync hne f hf

/-- Witness for C2 (amended): a call whose continuous estimate is nonempty;
the registered shadow ends the call synced with both estimates. -/
theorem claim_C2_witness :
    resC2W.currContinuous ≠ [] ∧
    DiscreteSlot.shadow shC2W ∈ resC2W.dfg ∧
    shC2W.updateContinuous resC2W.currContinuous = shC2W ∧
    shC2W.updateDiscrete resC2W.currDiscrete = shC2W := by
  have hne : resC2W.currContinuous ≠ [] := by decide
  have hmem : DiscreteSlot.shadow shC2W ∈ resC2W.dfg := by decide
  have h := claim_C2_amended_sync_nonempty_continuous solC2W stC2 [] [] []
    [(1, Unit.unit)] [(7, 1)] [] hne shC2W hmem
  exact ⟨hne, hmem, h.1, h.2⟩

/-! ## Claim C3 -/

/-- Counterexample to C3: `DCSAM::update` takes a single
`removeFactorIndices` list, forwarded to the continuous optimizer only; the
removal from the accumulated discrete graph is commented out in the source
(`//dfg_.remov`).  Removing index 0 from a controller whose discrete graph
holds one factor at index 0 leaves the discrete graph with that factor
still present. -/
theorem claim_C3_counterexample :
    resC3.dfg = [DiscreteSlot.plain 0] ∧ resC3.dfg = stC3.dfg := by
  decide

/-- **C3 (amended).** `update` accepts one removal-index list, which is
applied to the continuous optimizer's slots before anything else (every
valid removed slot reads back as nulled after the call); the accumulated
discrete factor graph is never pruned — each call grows it by exactly two
copies of the new discrete factors and hybrid discrete shadows (the
duplicate push is a quirk of the source, which pushes the same local graph
in both `updateDiscrete` calls). -/
theorem claim_C3_amended_removals_continuous_only {V : Type} (S : Solvers V)
    (st : DCSAMState V) (graph : List (NonlinearSlot V))
    (dfgNew : List (DiscreteSlot V)) (dcfg : List DCFactorDescr)
    (ic : KVMap V) (idg : KVMap ℕ) (rem : List ℕ) :
    (∀ i ∈ rem, i < st.isamFactors.length →
      (DCSAM.update S st graph dfgNew dcfg ic idg rem).isamFactors.get? i = some none) ∧
    (DCSAM.update S st graph dfgNew dcfg ic idg rem).dfg.length =
      st.dfg.length + 2 * (dfgNew.length + dcfg.length) := by
  constructor
  · intro i hi hlen
    rw [DCSAM.update_isamFactors_eq]
    rw [List.get?_append
      (by rw [List.length_map, applyRemovals_length]; exact hlen)]
    rw [List.get?_map, applyRemovals_mem_get hi hlen]
    rfl
  · rw [DCSAM.update_dfg_eq, updateDiscreteInfo_length]
    simp only [List.length_append, updateDiscreteInfo_length, List.length_map]
    omega

/-- Witness for C3 (amended): removing index 0 nulls the optimizer slot 0
while the discrete graph keeps its single factor. -/
theorem claim_C3_witness :
    (0 ∈ ([0] : List ℕ) ∧ 0 < stC3.isamFactors.length) ∧
    resC3.isamFactors.get? 0 = some none ∧
    resC3.dfg.length = stC3.dfg.length + 2 * (0 + 0) := by
  have h := claim_C3_amended_removals_continuous_only solTrivial stC3 [] [] [] [] [] [0]
  exact ⟨⟨by decide, by decide⟩, h.1 0 (by decide) (by decide), h.2⟩

/-! ## Claim C4 -/

/-- Counterexample to C4: there is no "skip the discrete solve" branch in
the source — `currDiscrete_ = solveDiscrete()` runs unconditionally.  A
pure-odometry call (one new continuous factor, nothing discrete) on a
controller whose accumulated discrete graph is empty *replaces* the
discrete estimate `3 ↦ 1` with the solve result of the empty graph (the
empty assignment, as `DiscreteFactorGraph::optimize()` returns on an empty
graph — here the oracle's value on it), so the discrete estimate is not
unchanged. -/
theorem claim_C4_counterexample :
    resC4.currDiscrete = [] ∧ stC4.currDiscrete = [(3, 1)] ∧
    resC4.currDiscrete ≠ stC4.currDiscrete := by
  decide

/-- **C4 (amended).** On an update call supplying only continuous factors
(no new discrete factors, no hybrid factors, empty discrete guess) the
discrete solve still runs: the resulting discrete estimate is the solver's
output on the accumulated discrete graph (refreshed with the merged
continuous estimate), not the previous estimate; in particular, with an
empty accumulated discrete graph the discrete estimate becomes the solve of
the empty graph. -/
theorem claim_C4_amended_discrete_solve_always_runs {V : Type} (S : Solvers V)
    (st : DCSAMState V) (graph : List (NonlinearSlot V)) (ic : KVMap V)
    (rem : List ℕ) :
    (DCSAM.update S st graph [] [] ic [] rem).currDiscrete =
      S.discSolve (updateDiscreteInfo (mergeVals st.currContinuous ic)
        st.currDiscrete st.dfg) ∧
    (st.dfg = [] →
      (DCSAM.update S st graph [] [] ic [] rem).currDiscrete = S.discSolve []) := by
  have h := DCSAM.update_currDiscrete_eq S st graph [] [] ic [] rem
  simp only [List.map_nil, List.append_nil, List.nil_append] at h
  constructor
  · rw [h]
    rfl
  · intro hdfg
    rw [h, hdfg, updateDiscreteInfo_nil]

/-- Witness for C4 (amended): the pure-odometry call on the empty discrete
graph yields the empty-graph solve. -/
theorem claim_C4_witness :
    stC4.dfg = [] ∧ resC4.currDiscrete = solTrivial.discSolve [] :=
  ⟨rfl, (claim_C4_amended_discrete_solve_always_runs solTrivial stC4
    [NonlinearSlot.plain 9] [] []).2 rfl⟩

/-! ## Claim C9 -/

/-- **C9.** For both shadow factors, `update_discrete` with the same
snapshot is idempotent, and it overwrites a frozen entry only for discrete
keys of the wrapped hybrid factor that are present in the snapshot: every
other stored entry reads back unchanged, while a key of the factor that is
present in the snapshot reads back with the snapshot's value. -/
theorem claim_C9_updateDiscrete_idem_frame {V : Type}
    (f : DCDiscreteFactor V) (g : DCContinuousFactor V) (snap : KVMap ℕ) :
    (f.updateDiscrete snap).updateDiscrete snap = f.updateDiscrete snap ∧
    (g.updateDiscrete snap).updateDiscrete snap = g.updateDiscrete snap ∧
    (∀ x, (x ∉ f.discreteKeys ∨ lookupKey snap x = none) →
      lookupKey (f.updateDiscrete snap).discreteVals x = lookupKey f.discreteVals x) ∧
    (∀ x, (x ∉ g.discreteKeys ∨ lookupKey snap x = none) →
      lookupKey (g.updateDiscrete snap).discreteVals x = lookupKey g.discreteVals x) ∧
    (∀ x v, x ∈ f.discreteKeys → lookupKey snap x = some v →
      lookupKey (f.updateDiscrete snap).discreteVals x = some v) ∧
    (∀ x v, x ∈ g.discreteKeys → lookupKey snap x = some v →
      lookupKey (g.updateDiscrete snap).discreteVals x = some v) := by
  refine ⟨?_, ?_, ?_, ?_, ?_, ?_⟩
  · cases f
    simp [DCDiscreteFactor.updateDiscrete, applyVals_idem]
  · cases g
    simp [DCContinuousFactor.updateDiscrete, applyVals_idem]
  · intro x hx
    exact lookupKey_applyVals_frame hx
  · intro x hx
    exact lookupKey_applyVals_frame hx
  · intro x v hx hv
    show lookupKey (applyVals f.discreteKeys f.discreteVals snap) x = some v
    rw [lookupKey_applyVals]
    simp [hx, hv]
  · intro x v hx hv
    show lookupKey (applyVals g.discreteKeys g.discreteVals snap) x = some v
    rw [lookupKey_applyVals]
    simp [hx, hv]

/-- Witness for C9: a shadow with keys `[1, 2]`, stored stray entry `3 ↦ 9`
and snapshot `1 ↦ 4`: the entry at 3 is untouched, the key-1 entry takes
the snapshot value, and re-applying the update changes nothing. -/
theorem claim_C9_witness :
    (3 ∉ shC9.discreteKeys ∨ lookupKey snapC9 3 = none) ∧
    (1 ∈ shC9.discreteKeys ∧ lookupKey snapC9 1 = some 4) ∧
    lookupKey (shC9.updateDiscrete snapC9).discreteVals 3 =
      lookupKey shC9.discreteVals 3 ∧
    lookupKey (shC9.updateDiscrete snapC9).discreteVals 1 = some 4 ∧
    (shC9.updateDiscrete snapC9).updateDiscrete snapC9 = shC9.updateDiscrete snapC9 := by
  have h3 : (3 ∉ shC9.discreteKeys ∨ lookupKey snapC9 3 = none) :=
    Or.inl (by decide)
  exact ⟨h3, ⟨by decide, by decide⟩,
    (claim_C9_updateDiscrete_idem_frame shC9 gC9 snapC9).2.2.1 3 h3,
    (claim_C9_updateDiscrete_idem_frame shC9 gC9 snapC9).2.2.2.2.1 1 4
      (by decide) (by decide),
    (claim_C9_updateDiscrete_idem_frame shC9 gC9 snapC9).1⟩

end dcsam
